import Mathlib

/-!
# dns_grepper: the query / normalise / print cycle of `main.go`

A shallow embedding of `run` and `fetchCommonNames` (`src/main.go`) together with
the standard-library operations they call (`strings.TrimSpace`,
`strings.TrimPrefix`, string comparison, `sort.Strings`, a `map[string]struct{}`
and its `range` loop), followed by the properties of the program.

Go strings are byte sequences, so a string is a list of byte values, and white
space is found the way the library finds it, by decoding UTF-8 from either end.
The database, the map iteration order and standard output are an explicit
`World` that the functions pass along.
-/

namespace DnsGrepper

/-! ## Go strings -/

/-- A Go `string`: an immutable sequence of bytes (each value below 256). -/
abbrev GoString := List Nat

/-- Go's `utf8.RuneError`, the replacement code point U+FFFD. -/
def runeError : Nat := 0xFFFD

/-- Go's `utf8.AppendRune`: the UTF-8 bytes of code point `r`.  Surrogates and
values past U+10FFFF are written as `utf8.RuneError`. -/
def encodeRune (r : Nat) : GoString :=
  if r < 0x80 then [r]
  else if r < 0x800 then [0xC0 + r / 64, 0x80 + r % 64]
  else if 0x10FFFF < r ∨ (0xD800 ≤ r ∧ r ≤ 0xDFFF) then
    [0xE0 + runeError / 4096, 0x80 + runeError / 64 % 64, 0x80 + runeError % 64]
  else if r < 0x10000 then [0xE0 + r / 4096, 0x80 + r / 64 % 64, 0x80 + r % 64]
  else [0xF0 + r / 262144, 0x80 + r / 4096 % 64, 0x80 + r / 64 % 64, 0x80 + r % 64]

/-- The bytes of a source-text literal (Go source is UTF-8). -/
def str (s : String) : GoString := s.data.flatMap (fun c => encodeRune c.toNat)

/-- Go's `strings.HasPrefix`:
`len(s) >= len(prefix) && s[:len(prefix)] == prefix`. -/
def HasPrefix (s p : GoString) : Bool :=
  decide (p.length ≤ s.length) && decide (s.take p.length = p)

/-- Go's `strings.TrimPrefix`: `s` without the leading `p`, or `s` itself when
it does not start with `p`. -/
def TrimPrefix (s p : GoString) : GoString :=
  if HasPrefix s p then s.drop p.length else s

/-! ## White space, as `unicode.IsSpace` defines it -/

/-- The code points for which Go's `unicode.IsSpace` answers true: in Latin-1
`'\t'`, `'\n'`, `'\v'`, `'\f'`, `'\r'`, `' '`, U+0085 and U+00A0; beyond it the
`White_Space` property: U+1680, U+2000..U+200A, U+2028, U+2029, U+202F, U+205F
and U+3000. -/
def spaceRunes : List Nat :=
  [0x09, 0x0A, 0x0B, 0x0C, 0x0D, 0x20, 0x85, 0xA0, 0x1680,
   0x2000, 0x2001, 0x2002, 0x2003, 0x2004, 0x2005, 0x2006, 0x2007, 0x2008, 0x2009, 0x200A,
   0x2028, 0x2029, 0x202F, 0x205F, 0x3000]

/-- Go's `unicode.IsSpace`. -/
def IsSpace (r : Nat) : Bool := decide (r ∈ spaceRunes)

/-! ## Decoding UTF-8, as package `unicode/utf8` does -/

/-- The range utf8's `acceptRanges` gives for the second byte after lead byte `s0`. -/
def acceptRange (s0 : Nat) : Nat × Nat :=
  if s0 = 0xE0 then (0xA0, 0xBF)
  else if s0 = 0xED then (0x80, 0x9F)
  else if s0 = 0xF0 then (0x90, 0xBF)
  else if s0 = 0xF4 then (0x80, 0x8F)
  else (0x80, 0xBF)

/-- The sequence length utf8's `first` table gives for a lead byte in 0xC2..0xF4. -/
def runeSize (s0 : Nat) : Nat :=
  if s0 < 0xE0 then 2 else if s0 < 0xF0 then 3 else 4

/-- Go's `utf8.DecodeRuneInString`: the first rune of `s` and its width in bytes;
`(RuneError, 0)` for the empty string and `(RuneError, 1)` for a malformed
encoding.  A mask `b & (2^k - 1)` is written `b % 2^k`, and `x << k | y`, whose
operands share no bit, `x * 2^k + y`. -/
def DecodeRuneInString (s : GoString) : Nat × Nat :=
  match s with
  | [] => (runeError, 0)
  | s0 :: _ =>
    if s0 < 0x80 then (s0, 1)
    else if s0 < 0xC2 ∨ 0xF4 < s0 then (runeError, 1)
    else if s.length < runeSize s0 then (runeError, 1)
    else if s.getD 1 0 < (acceptRange s0).1 ∨ (acceptRange s0).2 < s.getD 1 0 then
      (runeError, 1)
    else if runeSize s0 ≤ 2 then (s0 % 32 * 64 + s.getD 1 0 % 64, 2)
    else if s.getD 2 0 < 0x80 ∨ 0xBF < s.getD 2 0 then (runeError, 1)
    else if runeSize s0 ≤ 3 then
      (s0 % 16 * 4096 + s.getD 1 0 % 64 * 64 + s.getD 2 0 % 64, 3)
    else if s.getD 3 0 < 0x80 ∨ 0xBF < s.getD 3 0 then (runeError, 1)
    else
      (s0 % 8 * 262144 + s.getD 1 0 % 64 * 4096 + s.getD 2 0 % 64 * 64 + s.getD 3 0 % 64, 4)

/-- Go's `utf8.RuneStart`: `b&0xC0 != 0x80`, the byte is not a continuation
byte. -/
def RuneStart (b : Nat) : Bool := decide (b / 64 % 4 ≠ 2)

/-- The loop `for start--; start >= lim; start--` of
`utf8.DecodeLastRuneInString`, entered with `start` already decremented: it
stops at a byte that starts a rune, or below `lim`.  Between `end - 2` and
`lim = end - 4` it runs three times at most, so a fuel of 4 is never used up. -/
def lastRuneStart (s : GoString) (lim : Int) : Nat → Int → Int
  | 0, start => start
  | fuel + 1, start =>
    if start < lim then start
    else if RuneStart (s.getD start.toNat 0) then start
    else lastRuneStart s lim fuel (start - 1)

/-- Go's `utf8.DecodeLastRuneInString`: the last rune of `s` and its width in
bytes; `(RuneError, 0)` for the empty string and `(RuneError, 1)` for a
malformed encoding.  The loop looks at no more than `utf8.UTFMax` bytes. -/
def DecodeLastRuneInString (s : GoString) : Nat × Nat :=
  if s.length = 0 then (runeError, 0)
  else if s.getD (s.length - 1) 0 < 0x80 then (s.getD (s.length - 1) 0, 1)
  else
    let lim : Int := if (s.length : Int) - 4 < 0 then 0 else (s.length : Int) - 4
    let start := lastRuneStart s lim 4 ((s.length : Int) - 2)
    let start := if start < 0 then 0 else start
    let d := DecodeRuneInString (s.drop start.toNat)
    if start + (d.2 : Int) ≠ (s.length : Int) then (runeError, 1) else d

/-- Width in bytes of the first rune of `s` when `unicode.IsSpace` accepts it,
otherwise 0: one step of the `range` loop in `strings.TrimLeftFunc`. -/
def leadingSpace (s : GoString) : Nat :=
  if IsSpace (DecodeRuneInString s).1 then (DecodeRuneInString s).2 else 0

/-- Width in bytes of the last rune of `s` when `unicode.IsSpace` accepts it,
otherwise 0: one step of the backward loop in `strings.TrimRightFunc`. -/
def trailingSpace (s : GoString) : Nat :=
  if IsSpace (DecodeLastRuneInString s).1 then (DecodeLastRuneInString s).2 else 0

/-! ## `strings.TrimSpace` -/

/-- The UTF-8 encodings of the white-space code points. -/
def spaceEncodings : List GoString := spaceRunes.map encodeRune

/-- The loop of `strings.TrimLeftFunc(s, unicode.IsSpace)`: drop leading runes
while they are white space.  `fuel` bounds the number of runes dropped. -/
def trimLeftLoop : Nat → GoString → GoString
  | 0, s => s
  | fuel + 1, s =>
    if leadingSpace s = 0 then s else trimLeftLoop fuel (s.drop (leadingSpace s))

/-- The loop of `strings.TrimRightFunc(s, unicode.IsSpace)`: drop trailing runes
while they are white space.  `fuel` bounds the number of runes dropped. -/
def trimRightLoop : Nat → GoString → GoString
  | 0, s => s
  | fuel + 1, s =>
    if trailingSpace s = 0 then s
    else trimRightLoop fuel (s.take (s.length - trailingSpace s))

/-- Go's `strings.TrimLeftFunc(s, unicode.IsSpace)`; a string of `n` bytes has at
most `n` runes. -/
def TrimLeftSpace (s : GoString) : GoString := trimLeftLoop s.length s

/-- Go's `strings.TrimRightFunc(s, unicode.IsSpace)`. -/
def TrimRightSpace (s : GoString) : GoString := trimRightLoop s.length s

/-- Go's `strings.TrimSpace`: `s` with all leading and trailing white space
removed (`TrimRightFunc(TrimLeftFunc(s, unicode.IsSpace), unicode.IsSpace)`; the
ASCII fast path of the library computes the same slice). -/
def TrimSpace (s : GoString) : GoString := TrimRightSpace (TrimLeftSpace s)

/-! ## String order and `sort.Strings` -/

/-- Go's `a < b` on strings: byte-wise lexicographic order, a proper prefix
coming first. -/
def strLess : GoString → GoString → Bool
  | [], [] => false
  | [], _ :: _ => true
  | _ :: _, [] => false
  | a :: s, b :: t => decide (a < b) || (decide (a = b) && strLess s t)

/-- A list of strings in strictly increasing order: every element is below every
later one. -/
def StrictlyAscending (l : List GoString) : Prop :=
  l.Pairwise (fun a b => strLess a b = true)

instance (l : List GoString) : Decidable (StrictlyAscending l) := by
  unfold StrictlyAscending; infer_instance

/-- Insert `x` in front of the first element that is not below it. -/
def insertSorted (x : GoString) : List GoString → List GoString
  | [] => [x]
  | y :: ys => if strLess y x then y :: insertSorted x ys else x :: y :: ys

/-- Go's `sort.Strings`: the slice rearranged into increasing order.  Equal
strings cannot be told apart, so every sorting algorithm returns this same
slice; an insertion sort stands for the library's. -/
def sortStrings : List GoString → List GoString
  | [] => []
  | x :: xs => insertSorted x (sortStrings xs)

/-! ## `map[string]struct{}` -/

/-- The keys held by a `map[string]struct{}`, each once. -/
abbrev StringSet := List GoString

/-- The assignment `m[k] = struct{}{}`: adds `k` unless it is already a key. -/
def setInsert (m : StringSet) (k : GoString) : StringSet :=
  if k ∈ m then m else m ++ [k]

/-- The statement `for name := range m`: visits every key once, in an order the
runtime picks.  `order` is that pick: at each step its head, reduced modulo the
number of keys left, selects the next key.  When `order` runs out the remaining
keys come in stored order. -/
def rangeKeys : List Nat → StringSet → List GoString
  | _, [] => []
  | [], k :: ks => k :: ks
  | c :: cs, k :: ks =>
    (k :: ks).getD (c % (ks.length + 1)) k ::
      rangeKeys cs ((k :: ks).eraseIdx (c % (ks.length + 1)))

/-! ## The program -/

/-- The wildcard marker `"*."`. -/
def wildcard : GoString := str "*."

/-- Lines 95-96 of `run`: `strings.TrimSpace`, then `strings.TrimPrefix(_, "*.")`. -/
def normaliseName (name : GoString) : GoString :=
  TrimPrefix (TrimSpace name) wildcard

/-- Lines 94-100 of `run`: the loop that fills `processed`. -/
def collect : List GoString → StringSet → StringSet
  | [], processed => processed
  | name :: names, processed =>
    let name := TrimPrefix (TrimSpace name) wildcard
    if name ≠ [] then collect names (setInsert processed name)
    else collect names processed

/-- Lines 92-106 of `run`: build the set seeded with `domain`, drain it into
`results` in the map's iteration order, and sort. -/
def normalise (order : List Nat) (domain : GoString) (names : List GoString) :
    List GoString :=
  let processed := collect names (setInsert [] domain)
  let results := rangeKeys order processed
  sortStrings results

/-- A Go `error` value: one raised by the database driver or the context, or one
made by `fmt.Errorf` with `%w`, which keeps the error it wraps. -/
inductive GoError where
  | raised (msg : String)
  | wrapped (msg : String) (cause : GoError)
  deriving DecidableEq, Repr

/-- One row of the cursor: `rows.Scan(&name)` stores a string or fails. -/
inductive Row where
  | value (name : GoString)
  | scanError (e : GoError)
  deriving DecidableEq, Repr

/-- The string a row scans to, if its scan succeeds. -/
def Row.name? : Row → Option GoString
  | Row.value name => some name
  | Row.scanError _ => none

/-- A `*sql.Rows`: the rows `rows.Next()` delivers before it returns false, and
what `rows.Err()` reports afterwards (`none` is `nil`). -/
structure Rows where
  pending : List Row
  err : Option GoError
  deriving DecidableEq, Repr

/-- What `stmt.QueryContext(ctx, pattern)` returns: an error or a cursor. -/
inductive QueryOutcome where
  | failed (e : GoError)
  | opened (rows : Rows)
  deriving DecidableEq, Repr

/-- Everything outside `run`: how the database answers each pattern within the
deadline, the order in which the runtime iterates a map, the patterns the
prepared statement has been executed with, and the lines written to standard
output. -/
structure World where
  database : GoString → QueryOutcome
  mapOrder : List Nat
  queries : List GoString
  stdout : List GoString

/-- Lines 124-130 of `fetchCommonNames`: the `for rows.Next()` loop; a row whose
scan fails is passed over, any other is appended to `names`. -/
def scanRows : List Row → List GoString → List GoString
  | [], names => names
  | Row.scanError _ :: rest, names => scanRows rest names
  | Row.value name :: rest, names => scanRows rest (names ++ [name])

/-- The function `fetchCommonNames`: execute the statement with `pattern`; on
failure return `nil, err`, otherwise the scanned names and `rows.Err()`. -/
def fetchCommonNames (w : World) (pattern : GoString) :
    (List GoString × Option GoError) × World :=
  let w1 := { w with queries := w.queries ++ [pattern] }
  match w.database pattern with
  | QueryOutcome.failed e => (([], some e), w1)
  | QueryOutcome.opened rows => ((scanRows rows.pending [], rows.err), w1)

/-- The function `run`: returns its `error` (`none` is `nil`) and the world it
leaves behind.  Each `fmt.Fprintln(w, name)` adds the line `name` to `stdout`;
the buffered writer is flushed when `run` returns. -/
def run (w : World) (domain : GoString) : Option GoError × World :=
  if domain = [] then (none, w)
  else
    let pattern := str "%." ++ domain
    match fetchCommonNames w pattern with
    | ((_, some err), w1) => (some (GoError.wrapped "failed to fetch names: " err), w1)
    | ((names, none), w1) =>
      let results := normalise w1.mapOrder domain names
      (none, { w1 with stdout := w1.stdout ++ results })

/-! ## The string order is a strict total order -/

theorem strLess_irrefl (a : GoString) : strLess a a = false := by
  induction a with
  | nil => rfl
  | cons x xs ih => simp [strLess, ih]

theorem strLess_trans {a b c : GoString} (hab : strLess a b = true)
    (hbc : strLess b c = true) : strLess a c = true := by
  induction a generalizing b c with
  | nil =>
    cases b with
    | nil => simp [strLess] at hab
    | cons y ys =>
      cases c with
      | nil => simp [strLess] at hbc
      | cons z zs => rfl
  | cons x xs ih =>
    cases b with
    | nil => simp [strLess] at hab
    | cons y ys =>
      cases c with
      | nil => simp [strLess] at hbc
      | cons z zs =>
        simp only [strLess, Bool.or_eq_true, Bool.and_eq_true, decide_eq_true_eq] at hab hbc ⊢
        rcases hab with hxy | ⟨hxy, hxs⟩
        · rcases hbc with hyz | ⟨hyz, _⟩
          · exact Or.inl (by omega)
          · exact Or.inl (by omega)
        · rcases hbc with hyz | ⟨hyz, hys⟩
          · exact Or.inl (by omega)
          · exact Or.inr ⟨by omega, ih hxs hys⟩

theorem strLess_total {a b : GoString} (hne : a ≠ b) :
    strLess a b = true ∨ strLess b a = true := by
  induction a generalizing b with
  | nil =>
    cases b with
    | nil => exact absurd rfl hne
    | cons y ys => exact Or.inl rfl
  | cons x xs ih =>
    cases b with
    | nil => exact Or.inr rfl
    | cons y ys =>
      simp only [strLess, Bool.or_eq_true, Bool.and_eq_true, decide_eq_true_eq]
      rcases Nat.lt_trichotomy x y with h | h | h
      · exact Or.inl (Or.inl h)
      · subst h
        have hne2 : xs ≠ ys := fun h => hne (by rw [h])
        rcases ih hne2 with h1 | h1
        · exact Or.inl (Or.inr ⟨rfl, h1⟩)
        · exact Or.inr (Or.inr ⟨rfl, h1⟩)
      · exact Or.inr (Or.inl h)

theorem strLess_asymm {a b : GoString} (hab : strLess a b = true) :
    strLess b a = false := by
  cases h : strLess b a with
  | false => rfl
  | true =>
    have := strLess_trans hab h
    rw [strLess_irrefl] at this
    exact absurd this (by decide)

theorem StrictlyAscending.nodup {l : List GoString} (h : StrictlyAscending l) :
    l.Nodup := by
  unfold StrictlyAscending at h
  refine List.Pairwise.imp ?_ h
  intro a b hab heq
  subst heq
  rw [strLess_irrefl] at hab
  exact absurd hab (by decide)

/-! ## `sort.Strings` returns the sorted rearrangement -/

theorem insertSorted_perm (x : GoString) (l : List GoString) :
    (insertSorted x l).Perm (x :: l) := by
  induction l with
  | nil => exact List.Perm.refl _
  | cons y ys ih =>
    unfold insertSorted
    split
    · exact (List.Perm.cons y ih).trans (List.Perm.swap x y ys)
    · exact List.Perm.refl _

theorem sortStrings_perm (l : List GoString) : (sortStrings l).Perm l := by
  induction l with
  | nil => exact List.Perm.refl _
  | cons x xs ih =>
    exact (insertSorted_perm x (sortStrings xs)).trans (List.Perm.cons x ih)

theorem mem_sortStrings {a : GoString} {l : List GoString} :
    a ∈ sortStrings l ↔ a ∈ l :=
  (sortStrings_perm l).mem_iff

theorem insertSorted_ascending {x : GoString} {l : List GoString} (hx : x ∉ l)
    (hl : StrictlyAscending l) : StrictlyAscending (insertSorted x l) := by
  induction l with
  | nil => simp [insertSorted, StrictlyAscending]
  | cons y ys ih =>
    have hy : ∀ z ∈ ys, strLess y z = true := (List.pairwise_cons.mp hl).1
    have hys : StrictlyAscending ys := (List.pairwise_cons.mp hl).2
    have hxy : x ≠ y := fun h => hx (by simp [h])
    have hxys : x ∉ ys := fun h => hx (List.mem_cons_of_mem _ h)
    unfold insertSorted
    split
    · rename_i hlt
      refine List.pairwise_cons.mpr ⟨?_, ih hxys hys⟩
      intro z hz
      rcases List.mem_cons.mp ((insertSorted_perm x ys).mem_iff.mp hz) with h | h
      · rw [h]; exact hlt
      · exact hy z h
    · rename_i hlt
      have hlt2 : strLess x y = true := by
        rcases strLess_total hxy with h | h
        · exact h
        · exact absurd h hlt
      refine List.pairwise_cons.mpr ⟨?_, hl⟩
      intro z hz
      rcases List.mem_cons.mp hz with h | h
      · rw [h]; exact hlt2
      · exact strLess_trans hlt2 (hy z h)

theorem sortStrings_ascending {l : List GoString} (hl : l.Nodup) :
    StrictlyAscending (sortStrings l) := by
  induction l with
  | nil => simp [sortStrings, StrictlyAscending]
  | cons x xs ih =>
    have hx : x ∉ xs := (List.nodup_cons.mp hl).1
    exact insertSorted_ascending (fun h => hx (mem_sortStrings.mp h))
      (ih (List.nodup_cons.mp hl).2)

/-- Two strictly ascending lists with the same elements are the same list. -/
theorem ascending_unique {l₁ l₂ : List GoString} (hp : l₁.Perm l₂)
    (h₁ : StrictlyAscending l₁) (h₂ : StrictlyAscending l₂) : l₁ = l₂ := by
  induction l₁ generalizing l₂ with
  | nil => exact (List.Perm.nil_eq hp)
  | cons x xs ih =>
    cases l₂ with
    | nil => exact absurd hp.length_eq (by simp)
    | cons y ys =>
      have hx := List.pairwise_cons.mp h₁
      have hy := List.pairwise_cons.mp h₂
      have hxy : x = y := by
        by_contra hne
        have hx_in : x ∈ ys := by
          rcases List.mem_cons.mp (hp.mem_iff.mp (List.mem_cons_self x xs)) with h | h
          · exact absurd h hne
          · exact h
        have hy_in : y ∈ xs := by
          rcases List.mem_cons.mp (hp.mem_iff.mpr (List.mem_cons_self y ys)) with h | h
          · exact absurd h.symm hne
          · exact h
        have h1 := hy.1 x hx_in
        have h2 := hx.1 y hy_in
        rw [strLess_asymm h1] at h2
        exact absurd h2 (by decide)
      subst hxy
      rw [ih (List.Perm.cons_inv hp) hx.2 hy.2]

/-- The output of `sort.Strings` depends only on which strings the slice holds,
not on the order they arrive in. -/
theorem sortStrings_congr {l₁ l₂ : List GoString} (hp : l₁.Perm l₂) (hl : l₁.Nodup) :
    sortStrings l₁ = sortStrings l₂ :=
  ascending_unique (((sortStrings_perm l₁).trans hp).trans (sortStrings_perm l₂).symm)
    (sortStrings_ascending hl) (sortStrings_ascending (hp.nodup_iff.mp hl))

/-! ## The set and its iteration -/

theorem mem_setInsert {m : StringSet} {k a : GoString} :
    a ∈ setInsert m k ↔ a ∈ m ∨ a = k := by
  unfold setInsert
  split
  · rename_i h
    constructor
    · exact Or.inl
    · rintro (h1 | h1)
      · exact h1
      · rw [h1]; exact h
  · simp

theorem nodup_setInsert {m : StringSet} (k : GoString) (hm : m.Nodup) :
    (setInsert m k).Nodup := by
  unfold setInsert
  split
  · exact hm
  · rename_i h
    refine List.nodup_append.mpr ⟨hm, List.nodup_singleton k, ?_⟩
    intro a ha hb
    rw [List.mem_singleton.mp hb] at ha
    exact h ha

theorem getD_cons_eraseIdx_perm (l : List GoString) (i : Nat) (d : GoString)
    (hi : i < l.length) : (l.getD i d :: l.eraseIdx i).Perm l := by
  induction l generalizing i with
  | nil => simp at hi
  | cons x xs ih =>
    cases i with
    | zero => simp
    | succ j =>
      have hj : j < xs.length := by simpa using hi
      have h1 : (x :: xs).getD (j + 1) d = xs.getD j d := by simp
      have h2 : (x :: xs).eraseIdx (j + 1) = x :: xs.eraseIdx j := rfl
      rw [h1, h2]
      exact (List.Perm.swap x (xs.getD j d) (xs.eraseIdx j)).trans
        (List.Perm.cons x (ih j hj))

/-- A `range` loop visits exactly the keys of the map, each once, whatever order
the runtime picks. -/
theorem rangeKeys_perm (order : List Nat) (m : StringSet) :
    (rangeKeys order m).Perm m := by
  induction order generalizing m with
  | nil =>
    cases m with
    | nil => exact List.Perm.refl _
    | cons k ks => exact List.Perm.refl _
  | cons c cs ih =>
    cases m with
    | nil => exact List.Perm.refl _
    | cons k ks =>
      have hi : c % (ks.length + 1) < (k :: ks).length := by
        simp only [List.length_cons]
        exact Nat.mod_lt _ (Nat.succ_pos _)
      unfold rangeKeys
      exact (List.Perm.cons _ (ih _)).trans (getD_cons_eraseIdx_perm (k :: ks) _ k hi)

/-- Every order of visiting the keys is one the model of `range` can produce. -/
theorem rangeKeys_reaches (m : StringSet) (p : List GoString) (hp : p.Perm m) :
    ∃ order, rangeKeys order m = p := by
  induction p generalizing m with
  | nil =>
    have : m = [] := (List.Perm.nil_eq hp).symm
    exact ⟨[], by rw [this]; rfl⟩
  | cons x xs ih =>
    cases m with
    | nil => exact absurd hp.length_eq (by simp)
    | cons k ks =>
      have hx : x ∈ k :: ks := hp.mem_iff.mp (List.mem_cons_self x xs)
      obtain ⟨i, hi, hget⟩ := List.getElem_of_mem hx
      have hmod : i % (ks.length + 1) = i := Nat.mod_eq_of_lt (by simpa using hi)
      have hgetD : (k :: ks).getD i k = x := by
        rw [List.getD_eq_getElem _ _ hi]; exact hget
      have hperm : xs.Perm ((k :: ks).eraseIdx i) := by
        have h1 := getD_cons_eraseIdx_perm (k :: ks) i k hi
        rw [hgetD] at h1
        exact List.Perm.cons_inv (hp.trans h1.symm)
      obtain ⟨cs, hcs⟩ := ih _ hperm
      refine ⟨i :: cs, ?_⟩
      unfold rangeKeys
      rw [hmod, hgetD, hcs]

theorem mem_collect {names : List GoString} {m : StringSet} {a : GoString} :
    a ∈ collect names m ↔
      a ∈ m ∨ (a ≠ [] ∧ ∃ r ∈ names, a = normaliseName r) := by
  induction names generalizing m with
  | nil => simp [collect]
  | cons n ns ih =>
    unfold collect
    simp only []
    split
    · rename_i hne
      rw [ih, mem_setInsert]
      constructor
      · rintro ((h | h) | ⟨h1, r, hr, h2⟩)
        · exact Or.inl h
        · exact Or.inr ⟨by rw [h]; exact hne, n, List.mem_cons_self _ _, h⟩
        · exact Or.inr ⟨h1, r, List.mem_cons_of_mem _ hr, h2⟩
      · rintro (h | ⟨h1, r, hr, h2⟩)
        · exact Or.inl (Or.inl h)
        · rcases List.mem_cons.mp hr with h3 | h3
          · rw [h3] at h2; exact Or.inl (Or.inr h2)
          · exact Or.inr ⟨h1, r, h3, h2⟩
    · rename_i hne
      have he : normaliseName n = [] := by
        by_contra h; exact hne h
      rw [ih]
      constructor
      · rintro (h | ⟨h1, r, hr, h2⟩)
        · exact Or.inl h
        · exact Or.inr ⟨h1, r, List.mem_cons_of_mem _ hr, h2⟩
      · rintro (h | ⟨h1, r, hr, h2⟩)
        · exact Or.inl h
        · rcases List.mem_cons.mp hr with h3 | h3
          · rw [h3, he] at h2; exact absurd h2 h1
          · exact Or.inr ⟨h1, r, h3, h2⟩

theorem nodup_collect {names : List GoString} {m : StringSet} (hm : m.Nodup) :
    (collect names m).Nodup := by
  induction names generalizing m with
  | nil => exact hm
  | cons n ns ih =>
    unfold collect
    simp only []
    split
    · exact ih (nodup_setInsert _ hm)
    · exact ih hm

theorem nodup_processed (domain : GoString) (names : List GoString) :
    (collect names (setInsert [] domain)).Nodup :=
  nodup_collect (nodup_setInsert domain List.nodup_nil)

theorem nodup_results (order : List Nat) (domain : GoString) (names : List GoString) :
    (rangeKeys order (collect names (setInsert [] domain))).Nodup :=
  (rangeKeys_perm order _).nodup_iff.mpr (nodup_processed domain names)

theorem mem_normalise {order : List Nat} {domain a : GoString} {names : List GoString} :
    a ∈ normalise order domain names ↔
      a = domain ∨ (a ≠ [] ∧ ∃ r ∈ names, a = normaliseName r) := by
  unfold normalise
  simp only []
  rw [mem_sortStrings, (rangeKeys_perm order _).mem_iff, mem_collect, mem_setInsert]
  simp

/-- The sorted output does not depend on the order in which the runtime iterates
the map. -/
theorem normalise_order_irrelevant (order order' : List Nat) (domain : GoString)
    (names : List GoString) :
    normalise order domain names = normalise order' domain names := by
  unfold normalise
  exact sortStrings_congr ((rangeKeys_perm order _).trans (rangeKeys_perm order' _).symm)
    (nodup_results order domain names)

/-! ## White space and the decoders -/

theorem hasPrefix_iff {s p : GoString} : HasPrefix s p = true ↔ p <+: s := by
  unfold HasPrefix
  rw [Bool.and_eq_true, decide_eq_true_eq, decide_eq_true_eq, List.prefix_iff_eq_take]
  constructor
  · rintro ⟨_, h⟩; exact h.symm
  · intro h
    refine ⟨?_, h.symm⟩
    have := congrArg List.length h
    rw [List.length_take] at this
    omega

theorem spaceEncodings_ne_nil : ∀ e ∈ spaceEncodings, e ≠ [] := by decide

theorem spaceEncodings_length_pos {e : GoString} (he : e ∈ spaceEncodings) :
    0 < e.length :=
  List.length_pos.mpr (spaceEncodings_ne_nil e he)

theorem encodeRune_mem_spaceEncodings {r : Nat} (h : IsSpace r = true) :
    encodeRune r ∈ spaceEncodings :=
  List.mem_map_of_mem encodeRune (of_decide_eq_true h)

theorem spaceRunes_le : ∀ r ∈ spaceRunes, r ≤ 0x3000 := by decide

theorem IsSpace_runeError : IsSpace runeError = false := by decide

theorem encodeRune_two (s0 s1 : Nat) (h0 : 0xC2 ≤ s0) (h0' : s0 < 0xE0)
    (h1 : 0x80 ≤ s1) (h1' : s1 ≤ 0xBF) :
    encodeRune (s0 % 32 * 64 + s1 % 64) = [s0, s1] := by
  unfold encodeRune
  rw [if_neg (by omega), if_pos (by omega)]
  congr 1
  · omega
  · congr 1; omega

theorem encodeRune_three (s0 s1 s2 : Nat) (h0 : 0xE0 ≤ s0) (h0' : s0 < 0xF0)
    (h1 : (acceptRange s0).1 ≤ s1) (h1' : s1 ≤ (acceptRange s0).2)
    (h2 : 0x80 ≤ s2) (h2' : s2 ≤ 0xBF) :
    encodeRune (s0 % 16 * 4096 + s1 % 64 * 64 + s2 % 64) = [s0, s1, s2] := by
  unfold acceptRange at h1 h1'
  unfold encodeRune
  split_ifs at h1 h1' <;> simp only [] at h1 h1' <;>
    (rw [if_neg (by omega), if_neg (by omega), if_neg (by omega), if_pos (by omega)]
     congr 1
     · omega
     · congr 1
       · omega
       · congr 1; omega)

theorem encodeRune_four (s0 s1 s2 s3 : Nat) (h0 : 0xF0 ≤ s0) (h0' : s0 ≤ 0xF4)
    (h1 : (acceptRange s0).1 ≤ s1) (h1' : s1 ≤ (acceptRange s0).2)
    (h2 : 0x80 ≤ s2) (h2' : s2 ≤ 0xBF) (h3 : 0x80 ≤ s3) (h3' : s3 ≤ 0xBF) :
    encodeRune (s0 % 8 * 262144 + s1 % 64 * 4096 + s2 % 64 * 64 + s3 % 64) =
      [s0, s1, s2, s3] := by
  unfold acceptRange at h1 h1'
  unfold encodeRune
  split_ifs at h1 h1' <;> simp only [] at h1 h1' <;>
    (rw [if_neg (by omega), if_neg (by omega), if_neg (by omega), if_neg (by omega)]
     congr 1
     · omega
     · congr 1
       · omega
       · congr 1
         · omega
         · congr 1; omega)

/-- A well-formed first rune is re-encoded to the bytes it was read from. -/
theorem encodeRune_DecodeRuneInString (s : GoString)
    (h : (DecodeRuneInString s).1 ≠ runeError) :
    encodeRune (DecodeRuneInString s).1 <+: s ∧
      (encodeRune (DecodeRuneInString s).1).length = (DecodeRuneInString s).2 := by
  cases s with
  | nil => exact absurd rfl h
  | cons s0 rest =>
    unfold DecodeRuneInString at h ⊢
    simp only [] at h ⊢
    split_ifs at h ⊢ with a1 a2 a3 a4 a5 a6 a7 a8 <;> first | exact absurd rfl h | skip
    · have : encodeRune s0 = [s0] := by unfold encodeRune; rw [if_pos a1]
      rw [this]
      exact ⟨by simp, rfl⟩
    · unfold runeSize at a3 a5
      obtain _ | ⟨s1, r1⟩ := rest
      · simp only [List.length_singleton] at a3; split_ifs at a3 <;> omega
      · simp only [List.getD_cons_succ, List.getD_cons_zero] at a4 ⊢
        have hs0 : s0 < 0xE0 := by split_ifs at a5 <;> omega
        have hacc : acceptRange s0 = (0x80, 0xBF) := by
          unfold acceptRange
          rw [if_neg (by omega), if_neg (by omega), if_neg (by omega), if_neg (by omega)]
        rw [hacc] at a4
        simp only [] at a4
        rw [encodeRune_two s0 s1 (by omega) hs0 (by omega) (by omega)]
        exact ⟨by simp, rfl⟩
    · unfold runeSize at a3 a5 a7
      have hs0 : 0xE0 ≤ s0 := by split_ifs at a5 <;> omega
      have hs0' : s0 < 0xF0 := by split_ifs at a7 <;> omega
      obtain _ | ⟨s1, _ | ⟨s2, r2⟩⟩ := rest
      · simp only [List.length_singleton] at a3; split_ifs at a3 <;> omega
      · simp only [List.length_cons, List.length_nil] at a3; split_ifs at a3 <;> omega
      · simp only [List.getD_cons_succ, List.getD_cons_zero] at a4 a6 ⊢
        rw [encodeRune_three s0 s1 s2 hs0 hs0' (by omega) (by omega) (by omega) (by omega)]
        exact ⟨by simp, rfl⟩
    · unfold runeSize at a3 a5 a7
      have hs0 : 0xF0 ≤ s0 := by split_ifs at a7 <;> omega
      obtain _ | ⟨s1, _ | ⟨s2, _ | ⟨s3, r3⟩⟩⟩ := rest
      · simp only [List.length_singleton] at a3; split_ifs at a3 <;> omega
      · simp only [List.length_cons, List.length_nil] at a3; split_ifs at a3 <;> omega
      · simp only [List.length_cons, List.length_nil] at a3; split_ifs at a3 <;> omega
      · simp only [List.getD_cons_succ, List.getD_cons_zero] at a4 a6 a8 ⊢
        rw [encodeRune_four s0 s1 s2 s3 hs0 (by omega) (by omega) (by omega) (by omega)
          (by omega) (by omega) (by omega)]
        exact ⟨by simp, rfl⟩

theorem DecodeRuneInString_two (s0 s1 : Nat) (t : GoString) (h0 : 0xC2 ≤ s0)
    (h0' : s0 < 0xE0) (h1 : 0x80 ≤ s1) (h1' : s1 ≤ 0xBF) :
    DecodeRuneInString (s0 :: s1 :: t) = (s0 % 32 * 64 + s1 % 64, 2) := by
  have hsize : runeSize s0 = 2 := by unfold runeSize; rw [if_pos h0']
  have hacc : acceptRange s0 = (0x80, 0xBF) := by
    unfold acceptRange
    rw [if_neg (by omega), if_neg (by omega), if_neg (by omega), if_neg (by omega)]
  unfold DecodeRuneInString
  simp only [hsize, hacc, List.getD_cons_succ, List.getD_cons_zero, List.length_cons]
  rw [if_neg (by omega), if_neg (by omega), if_neg (by omega), if_neg (by omega),
    if_pos (by omega)]

theorem DecodeRuneInString_three (s0 s1 s2 : Nat) (t : GoString) (h0 : 0xE0 ≤ s0)
    (h0' : s0 < 0xF0) (h1 : (acceptRange s0).1 ≤ s1) (h1' : s1 ≤ (acceptRange s0).2)
    (h2 : 0x80 ≤ s2) (h2' : s2 ≤ 0xBF) :
    DecodeRuneInString (s0 :: s1 :: s2 :: t) =
      (s0 % 16 * 4096 + s1 % 64 * 64 + s2 % 64, 3) := by
  have hsize : runeSize s0 = 3 := by
    unfold runeSize; rw [if_neg (by omega), if_pos h0']
  unfold DecodeRuneInString
  simp only [hsize, List.getD_cons_succ, List.getD_cons_zero, List.length_cons]
  rw [if_neg (by omega), if_neg (by omega), if_neg (by omega), if_neg (by omega),
    if_neg (by omega), if_neg (by omega), if_pos (by omega)]

theorem DecodeRuneInString_four (s0 s1 s2 s3 : Nat) (t : GoString) (h0 : 0xF0 ≤ s0)
    (h0' : s0 ≤ 0xF4) (h1 : (acceptRange s0).1 ≤ s1) (h1' : s1 ≤ (acceptRange s0).2)
    (h2 : 0x80 ≤ s2) (h2' : s2 ≤ 0xBF) (h3 : 0x80 ≤ s3) (h3' : s3 ≤ 0xBF) :
    DecodeRuneInString (s0 :: s1 :: s2 :: s3 :: t) =
      (s0 % 8 * 262144 + s1 % 64 * 4096 + s2 % 64 * 64 + s3 % 64, 4) := by
  have hsize : runeSize s0 = 4 := by
    unfold runeSize; rw [if_neg (by omega), if_neg (by omega)]
  unfold DecodeRuneInString
  simp only [hsize, List.getD_cons_succ, List.getD_cons_zero, List.length_cons]
  rw [if_neg (by omega), if_neg (by omega), if_neg (by omega), if_neg (by omega),
    if_neg (by omega), if_neg (by omega), if_neg (by omega), if_neg (by omega)]

/-- Decoding reads back a code point that was encoded. -/
theorem DecodeRuneInString_encodeRune (r : Nat) (t : GoString) (hr : r ≤ 0x10FFFF)
    (hs : ¬ (0xD800 ≤ r ∧ r ≤ 0xDFFF)) :
    DecodeRuneInString (encodeRune r ++ t) = (r, (encodeRune r).length) := by
  by_cases b1 : r < 0x80
  · have he : encodeRune r = [r] := by unfold encodeRune; rw [if_pos b1]
    rw [he]
    show DecodeRuneInString (r :: t) = (r, 1)
    unfold DecodeRuneInString
    simp only []
    rw [if_pos b1]
  by_cases b2 : r < 0x800
  · have he : encodeRune r = [0xC0 + r / 64, 0x80 + r % 64] := by
      unfold encodeRune; rw [if_neg b1, if_pos b2]
    rw [he]
    show DecodeRuneInString ((0xC0 + r / 64) :: (0x80 + r % 64) :: t) = (r, 2)
    rw [DecodeRuneInString_two _ _ _ (by omega) (by omega) (by omega) (by omega)]
    exact Prod.ext (by simp only []; omega) rfl
  by_cases b4 : r < 0x10000
  · have he : encodeRune r = [0xE0 + r / 4096, 0x80 + r / 64 % 64, 0x80 + r % 64] := by
      unfold encodeRune; rw [if_neg b1, if_neg b2, if_neg (by omega), if_pos b4]
    rw [he]
    show DecodeRuneInString
      ((0xE0 + r / 4096) :: (0x80 + r / 64 % 64) :: (0x80 + r % 64) :: t) = (r, 3)
    have hlo : (acceptRange (0xE0 + r / 4096)).1 ≤ 0x80 + r / 64 % 64 := by
      unfold acceptRange; split_ifs <;> simp only [] <;> omega
    have hhi : 0x80 + r / 64 % 64 ≤ (acceptRange (0xE0 + r / 4096)).2 := by
      unfold acceptRange; split_ifs <;> simp only [] <;> omega
    rw [DecodeRuneInString_three _ _ _ _ (by omega) (by omega) hlo hhi (by omega) (by omega)]
    exact Prod.ext (by simp only []; omega) rfl
  · have he : encodeRune r =
        [0xF0 + r / 262144, 0x80 + r / 4096 % 64, 0x80 + r / 64 % 64, 0x80 + r % 64] := by
      unfold encodeRune; rw [if_neg b1, if_neg b2, if_neg (by omega), if_neg b4]
    rw [he]
    show DecodeRuneInString
      ((0xF0 + r / 262144) :: (0x80 + r / 4096 % 64) :: (0x80 + r / 64 % 64) ::
        (0x80 + r % 64) :: t) = (r, 4)
    have hlo : (acceptRange (0xF0 + r / 262144)).1 ≤ 0x80 + r / 4096 % 64 := by
      unfold acceptRange; split_ifs <;> simp only [] <;> omega
    have hhi : 0x80 + r / 4096 % 64 ≤ (acceptRange (0xF0 + r / 262144)).2 := by
      unfold acceptRange; split_ifs <;> simp only [] <;> omega
    rw [DecodeRuneInString_four _ _ _ _ _ (by omega) (by omega) hlo hhi (by omega) (by omega)
      (by omega) (by omega)]
    exact Prod.ext (by simp only []; omega) rfl

theorem drop_length_sub_one_eq (s : GoString) (h : s.length ≠ 0) :
    s.drop (s.length - 1) = [s.getD (s.length - 1) 0] := by
  have hlt : s.length - 1 < s.length := by omega
  rw [List.drop_eq_getElem_cons hlt, List.getD_eq_getElem _ _ hlt]
  congr 1
  apply List.drop_of_length_le
  omega

theorem DecodeLastRuneInString_multibyte (s : GoString) (c1 : s.length ≠ 0)
    (c2 : ¬ s.getD (s.length - 1) 0 < 0x80) :
    ∃ start : Int, 0 ≤ start ∧
      DecodeLastRuneInString s =
        if start + ((DecodeRuneInString (s.drop start.toNat)).2 : Int) ≠ (s.length : Int)
        then (runeError, 1) else DecodeRuneInString (s.drop start.toNat) := by
  unfold DecodeLastRuneInString
  rw [if_neg c1, if_neg c2]
  refine ⟨_, ?_, rfl⟩
  split_ifs <;> omega

/-- When the last rune of `s` is white space, `s` ends with its encoding. -/
theorem suffix_of_IsSpace_DecodeLastRuneInString (s : GoString)
    (h : IsSpace (DecodeLastRuneInString s).1 = true) :
    encodeRune (DecodeLastRuneInString s).1 <:+ s ∧
      (encodeRune (DecodeLastRuneInString s).1).length = (DecodeLastRuneInString s).2 := by
  have hne : (DecodeLastRuneInString s).1 ≠ runeError := by
    intro heq
    rw [heq, IsSpace_runeError] at h
    exact absurd h (by decide)
  by_cases c1 : s.length = 0
  · have : DecodeLastRuneInString s = (runeError, 0) := by
      unfold DecodeLastRuneInString; rw [if_pos c1]
    rw [this] at hne
    exact absurd rfl hne
  by_cases c2 : s.getD (s.length - 1) 0 < 0x80
  · have hd : DecodeLastRuneInString s = (s.getD (s.length - 1) 0, 1) := by
      unfold DecodeLastRuneInString; rw [if_neg c1, if_pos c2]
    have he : encodeRune (s.getD (s.length - 1) 0) = [s.getD (s.length - 1) 0] := by
      unfold encodeRune; rw [if_pos c2]
    rw [hd]
    simp only [he]
    refine ⟨?_, rfl⟩
    rw [← drop_length_sub_one_eq s c1]
    exact List.drop_suffix _ s
  · obtain ⟨start, h0, hd⟩ := DecodeLastRuneInString_multibyte s c1 c2
    rw [hd] at hne ⊢
    split_ifs at hne ⊢ with c3
    · exact absurd rfl hne
    · obtain ⟨hp, hl⟩ := encodeRune_DecodeRuneInString _ hne
      refine ⟨?_, hl⟩
      have hlen : (s.drop start.toNat).length = (DecodeRuneInString (s.drop start.toNat)).2 := by
        rw [List.length_drop]
        omega
      rw [hp.eq_of_length (hl.trans hlen.symm)]
      exact List.drop_suffix _ s

theorem DecodeLastRuneInString_of_start (s : GoString) (n : Nat) (d : Nat × Nat)
    (c1 : s.length ≠ 0) (c2 : ¬ s.getD (s.length - 1) 0 < 0x80)
    (hstart : lastRuneStart s (if (s.length : Int) - 4 < 0 then 0 else (s.length : Int) - 4) 4
      ((s.length : Int) - 2) = (n : Int))
    (hd : DecodeRuneInString (s.drop n) = d) (hsz : n + d.2 = s.length) :
    DecodeLastRuneInString s = d := by
  have h0 : (if (n : Int) < 0 then 0 else (n : Int)) = (n : Int) := if_neg (by omega)
  unfold DecodeLastRuneInString
  rw [if_neg c1, if_neg c2]
  simp only [hstart, h0, Int.toNat_ofNat, hd]
  rw [if_neg (by omega)]

theorem lastRuneStart_found (s : GoString) (lim : Int) (fuel : Nat) (start : Int)
    (hlim : lim ≤ start) (hrs : RuneStart (s.getD start.toNat 0) = true) :
    lastRuneStart s lim (fuel + 1) start = start := by
  unfold lastRuneStart
  rw [if_neg (by omega), if_pos hrs]

theorem lastRuneStart_skip (s : GoString) (lim : Int) (fuel : Nat) (start : Int)
    (hlim : lim ≤ start) (hrs : RuneStart (s.getD start.toNat 0) = false) :
    lastRuneStart s lim (fuel + 1) start = lastRuneStart s lim fuel (start - 1) := by
  conv_lhs => unfold lastRuneStart
  rw [if_neg (by omega), if_neg (by rw [hrs]; decide)]

theorem getD_append_cons (t : GoString) (e : GoString) (k : Nat) :
    (t ++ e).getD (t.length + k) 0 = e.getD k 0 := by
  rw [List.getD_append_right _ _ _ _ (by omega)]
  congr 1
  omega

/-- The backward decoder reads back a code point encoded at the end of a
string. -/
theorem DecodeLastRuneInString_encodeRune (r : Nat) (t : GoString) (hr : r ≤ 0x10FFFF)
    (hs : ¬ (0xD800 ≤ r ∧ r ≤ 0xDFFF)) :
    DecodeLastRuneInString (t ++ encodeRune r) = (r, (encodeRune r).length) := by
  have hfwd := DecodeRuneInString_encodeRune r [] hr hs
  rw [List.append_nil] at hfwd
  by_cases b1 : r < 0x80
  · have he : encodeRune r = [r] := by unfold encodeRune; rw [if_pos b1]
    rw [he]
    have hlen : (t ++ [r]).length = t.length + 1 := by simp
    have hlast : (t ++ [r]).getD ((t ++ [r]).length - 1) 0 = r := by
      rw [hlen]
      exact getD_append_cons t [r] 0
    unfold DecodeLastRuneInString
    rw [if_neg (by omega), hlast, if_pos b1]
    rfl
  by_cases b2 : r < 0x800
  · have he : encodeRune r = [0xC0 + r / 64, 0x80 + r % 64] := by
      unfold encodeRune; rw [if_neg b1, if_pos b2]
    rw [he] at hfwd ⊢
    have hlen : (t ++ [0xC0 + r / 64, 0x80 + r % 64]).length = t.length + 2 := by simp
    have g0 := getD_append_cons t [0xC0 + r / 64, 0x80 + r % 64] 0
    have g1 := getD_append_cons t [0xC0 + r / 64, 0x80 + r % 64] 1
    simp only [List.getD_cons_succ, List.getD_cons_zero, Nat.add_zero] at g0 g1
    apply DecodeLastRuneInString_of_start _ t.length
    · omega
    · rw [hlen, show t.length + 2 - 1 = t.length + 1 by omega, g1]; omega
    · rw [hlen]
      rw [lastRuneStart_found]
      · push_cast; omega
      · split_ifs <;> push_cast <;> omega
      · have : ((t.length + 2 : Nat) : Int) - 2 = (t.length : Int) := by push_cast; omega
        rw [this, Int.toNat_ofNat, g0]
        unfold RuneStart
        apply decide_eq_true
        omega
    · rw [List.drop_left]; exact hfwd
    · rw [hlen]; rfl
  by_cases b4 : r < 0x10000
  · have he : encodeRune r = [0xE0 + r / 4096, 0x80 + r / 64 % 64, 0x80 + r % 64] := by
      unfold encodeRune; rw [if_neg b1, if_neg b2, if_neg (by omega), if_pos b4]
    rw [he] at hfwd ⊢
    have hlen : (t ++ [0xE0 + r / 4096, 0x80 + r / 64 % 64, 0x80 + r % 64]).length =
        t.length + 3 := by simp
    have g0 := getD_append_cons t [0xE0 + r / 4096, 0x80 + r / 64 % 64, 0x80 + r % 64] 0
    have g1 := getD_append_cons t [0xE0 + r / 4096, 0x80 + r / 64 % 64, 0x80 + r % 64] 1
    have g2 := getD_append_cons t [0xE0 + r / 4096, 0x80 + r / 64 % 64, 0x80 + r % 64] 2
    simp only [List.getD_cons_succ, List.getD_cons_zero, Nat.add_zero] at g0 g1 g2
    apply DecodeLastRuneInString_of_start _ t.length
    · omega
    · rw [hlen, show t.length + 3 - 1 = t.length + 2 by omega, g2]; omega
    · rw [hlen]
      have e1 : ((t.length + 3 : Nat) : Int) - 2 = ((t.length + 1 : Nat) : Int) := by
        push_cast; omega
      have e0 : ((t.length + 1 : Nat) : Int) - 1 = (t.length : Int) := by
        push_cast; omega
      rw [e1, lastRuneStart_skip, e0, lastRuneStart_found]
      · split_ifs <;> push_cast <;> omega
      · rw [Int.toNat_ofNat, g0]
        unfold RuneStart
        apply decide_eq_true
        omega
      · split_ifs <;> push_cast <;> omega
      · rw [Int.toNat_ofNat, g1]
        unfold RuneStart
        apply decide_eq_false
        omega
    · rw [List.drop_left]; exact hfwd
    · rw [hlen]; rfl
  · have he : encodeRune r =
        [0xF0 + r / 262144, 0x80 + r / 4096 % 64, 0x80 + r / 64 % 64, 0x80 + r % 64] := by
      unfold encodeRune; rw [if_neg b1, if_neg b2, if_neg (by omega), if_neg b4]
    rw [he] at hfwd ⊢
    have hlen : (t ++ [0xF0 + r / 262144, 0x80 + r / 4096 % 64, 0x80 + r / 64 % 64,
        0x80 + r % 64]).length = t.length + 4 := by simp
    have g0 := getD_append_cons t
      [0xF0 + r / 262144, 0x80 + r / 4096 % 64, 0x80 + r / 64 % 64, 0x80 + r % 64] 0
    have g1 := getD_append_cons t
      [0xF0 + r / 262144, 0x80 + r / 4096 % 64, 0x80 + r / 64 % 64, 0x80 + r % 64] 1
    have g2 := getD_append_cons t
      [0xF0 + r / 262144, 0x80 + r / 4096 % 64, 0x80 + r / 64 % 64, 0x80 + r % 64] 2
    have g3 := getD_append_cons t
      [0xF0 + r / 262144, 0x80 + r / 4096 % 64, 0x80 + r / 64 % 64, 0x80 + r % 64] 3
    simp only [List.getD_cons_succ, List.getD_cons_zero, Nat.add_zero] at g0 g1 g2 g3
    apply DecodeLastRuneInString_of_start _ t.length
    · omega
    · rw [hlen, show t.length + 4 - 1 = t.length + 3 by omega, g3]; omega
    · rw [hlen]
      have e2 : ((t.length + 4 : Nat) : Int) - 2 = ((t.length + 2 : Nat) : Int) := by
        push_cast; omega
      have e1 : ((t.length + 2 : Nat) : Int) - 1 = ((t.length + 1 : Nat) : Int) := by
        push_cast; omega
      have e0 : ((t.length + 1 : Nat) : Int) - 1 = (t.length : Int) := by
        push_cast; omega
      rw [e2, lastRuneStart_skip, e1, lastRuneStart_skip, e0, lastRuneStart_found]
      · split_ifs <;> push_cast <;> omega
      · rw [Int.toNat_ofNat, g0]
        unfold RuneStart
        apply decide_eq_true
        omega
      · split_ifs <;> push_cast <;> omega
      · rw [Int.toNat_ofNat, g1]
        unfold RuneStart
        apply decide_eq_false
        omega
      · split_ifs <;> push_cast <;> omega
      · rw [Int.toNat_ofNat, g2]
        unfold RuneStart
        apply decide_eq_false
        omega
    · rw [List.drop_left]; exact hfwd
    · rw [hlen]; rfl

/-- A string that starts with the encoding of a white-space rune has that rune
as its first rune. -/
theorem leadingSpace_append_of_mem {e : GoString} (he : e ∈ spaceEncodings)
    (t : GoString) : leadingSpace (e ++ t) = e.length := by
  obtain ⟨r, hr, hre⟩ := List.mem_map.mp he
  have hle := spaceRunes_le r hr
  have hdec := DecodeRuneInString_encodeRune r t (by omega) (by omega)
  rw [hre] at hdec
  unfold leadingSpace
  rw [hdec]
  simp only [show IsSpace r = true from decide_eq_true hr, if_true]

/-- A string that ends with the encoding of a white-space rune has that rune as
its last rune. -/
theorem trailingSpace_append_of_mem {e : GoString} (he : e ∈ spaceEncodings)
    (t : GoString) : trailingSpace (t ++ e) = e.length := by
  obtain ⟨r, hr, hre⟩ := List.mem_map.mp he
  have hle := spaceRunes_le r hr
  have hdec := DecodeLastRuneInString_encodeRune r t (by omega) (by omega)
  rw [hre] at hdec
  unfold trailingSpace
  rw [hdec]
  simp only [show IsSpace r = true from decide_eq_true hr, if_true]

theorem leadingSpace_pos {s : GoString} (h : leadingSpace s ≠ 0) :
    ∃ e ∈ spaceEncodings, e <+: s ∧ leadingSpace s = e.length := by
  unfold leadingSpace at h ⊢
  cases hsp : IsSpace (DecodeRuneInString s).1 with
  | false => rw [hsp] at h; exact absurd rfl h
  | true =>
    have hne : (DecodeRuneInString s).1 ≠ runeError := by
      intro heq
      rw [heq, IsSpace_runeError] at hsp
      exact absurd hsp (by decide)
    obtain ⟨hp, hl⟩ := encodeRune_DecodeRuneInString s hne
    refine ⟨_, encodeRune_mem_spaceEncodings hsp, hp, ?_⟩
    simp only [if_true]
    exact hl.symm

theorem trailingSpace_pos {s : GoString} (h : trailingSpace s ≠ 0) :
    ∃ e ∈ spaceEncodings, e <:+ s ∧ trailingSpace s = e.length := by
  unfold trailingSpace at h ⊢
  cases hsp : IsSpace (DecodeLastRuneInString s).1 with
  | false => rw [hsp] at h; exact absurd rfl h
  | true =>
    obtain ⟨hp, hl⟩ := suffix_of_IsSpace_DecodeLastRuneInString s hsp
    refine ⟨_, encodeRune_mem_spaceEncodings hsp, hp, ?_⟩
    simp only [if_true]
    exact hl.symm

theorem leadingSpace_eq_zero_iff {s : GoString} :
    leadingSpace s = 0 ↔ ∀ e ∈ spaceEncodings, ¬ e <+: s := by
  constructor
  · rintro h e hmem ⟨t, ht⟩
    have := leadingSpace_append_of_mem hmem t
    rw [ht, h] at this
    exact absurd this.symm (Nat.pos_iff_ne_zero.mp (spaceEncodings_length_pos hmem))
  · intro h
    by_contra hne
    obtain ⟨e, hmem, hp, _⟩ := leadingSpace_pos hne
    exact h e hmem hp

theorem trailingSpace_eq_zero_iff {s : GoString} :
    trailingSpace s = 0 ↔ ∀ e ∈ spaceEncodings, ¬ e <:+ s := by
  constructor
  · rintro h e hmem ⟨t, ht⟩
    have := trailingSpace_append_of_mem hmem t
    rw [ht, h] at this
    exact absurd this.symm (Nat.pos_iff_ne_zero.mp (spaceEncodings_length_pos hmem))
  · intro h
    by_contra hne
    obtain ⟨e, hmem, hp, _⟩ := trailingSpace_pos hne
    exact h e hmem hp

theorem leadingSpace_nil : leadingSpace [] = 0 := by decide

theorem trailingSpace_nil : trailingSpace [] = 0 := by decide

/-- With fuel for every byte the left loop stops only where no white space
leads. -/
theorem leadingSpace_trimLeftLoop (n : Nat) (s : GoString) (h : s.length ≤ n) :
    leadingSpace (trimLeftLoop n s) = 0 := by
  induction n generalizing s with
  | zero =>
    have : s = [] := List.length_eq_zero.mp (Nat.le_zero.mp h)
    rw [this]; exact leadingSpace_nil
  | succ n ih =>
    unfold trimLeftLoop
    split
    · assumption
    · rename_i hne
      obtain ⟨e, hmem, _, hlen⟩ := leadingSpace_pos hne
      have hpos := spaceEncodings_length_pos hmem
      apply ih
      rw [List.length_drop]
      omega

theorem trailingSpace_trimRightLoop (n : Nat) (s : GoString) (h : s.length ≤ n) :
    trailingSpace (trimRightLoop n s) = 0 := by
  induction n generalizing s with
  | zero =>
    have : s = [] := List.length_eq_zero.mp (Nat.le_zero.mp h)
    rw [this]; exact trailingSpace_nil
  | succ n ih =>
    unfold trimRightLoop
    split
    · assumption
    · rename_i hne
      obtain ⟨e, hmem, hsuf, hlen⟩ := trailingSpace_pos hne
      have hpos := spaceEncodings_length_pos hmem
      have hle := hsuf.length_le
      apply ih
      rw [List.length_take]
      omega

theorem trimLeftLoop_isSuffix (n : Nat) (s : GoString) : trimLeftLoop n s <:+ s := by
  induction n generalizing s with
  | zero => exact List.suffix_refl s
  | succ n ih =>
    unfold trimLeftLoop
    split
    · exact List.suffix_refl s
    · exact (ih _).trans (List.drop_suffix _ s)

theorem trimRightLoop_isPrefix (n : Nat) (s : GoString) : trimRightLoop n s <+: s := by
  induction n generalizing s with
  | zero => exact List.prefix_refl s
  | succ n ih =>
    unfold trimRightLoop
    split
    · exact List.prefix_refl s
    · exact (ih _).trans (List.take_prefix _ s)

theorem trimLeftLoop_of_leadingSpace_eq_zero (n : Nat) {s : GoString}
    (h : leadingSpace s = 0) : trimLeftLoop n s = s := by
  cases n with
  | zero => rfl
  | succ n => unfold trimLeftLoop; rw [if_pos h]

theorem trimRightLoop_of_trailingSpace_eq_zero (n : Nat) {s : GoString}
    (h : trailingSpace s = 0) : trimRightLoop n s = s := by
  cases n with
  | zero => rfl
  | succ n => unfold trimRightLoop; rw [if_pos h]

theorem leadingSpace_of_isPrefix {s t : GoString} (hp : s <+: t)
    (h : leadingSpace t = 0) : leadingSpace s = 0 := by
  rw [leadingSpace_eq_zero_iff] at h ⊢
  intro e hmem he
  exact h e hmem (he.trans hp)

theorem trailingSpace_of_isSuffix {s t : GoString} (hp : s <:+ t)
    (h : trailingSpace t = 0) : trailingSpace s = 0 := by
  rw [trailingSpace_eq_zero_iff] at h ⊢
  intro e hmem he
  exact h e hmem (he.trans hp)

/-- No white space leads the result of `strings.TrimSpace`. -/
theorem leadingSpace_TrimSpace (s : GoString) : leadingSpace (TrimSpace s) = 0 :=
  leadingSpace_of_isPrefix (trimRightLoop_isPrefix _ _)
    (leadingSpace_trimLeftLoop _ _ (Nat.le_refl _))

/-- No white space trails the result of `strings.TrimSpace`. -/
theorem trailingSpace_TrimSpace (s : GoString) : trailingSpace (TrimSpace s) = 0 :=
  trailingSpace_trimRightLoop _ _ (Nat.le_refl _)

/-- A string with no white space at either end is what `strings.TrimSpace`
returns for it. -/
theorem TrimSpace_eq_self {s : GoString} (hl : leadingSpace s = 0)
    (hr : trailingSpace s = 0) : TrimSpace s = s := by
  unfold TrimSpace TrimRightSpace TrimLeftSpace
  rw [trimLeftLoop_of_leadingSpace_eq_zero _ hl, trimRightLoop_of_trailingSpace_eq_zero _ hr]

/-! ## The wildcard marker and white space -/

theorem wildcard_eq : wildcard = [42, 46] := by decide

theorem spaceEncodings_head_ne_star : ∀ e ∈ spaceEncodings, e.head? ≠ some 42 := by
  decide

theorem spaceEncodings_dot_not_mem : ∀ e ∈ spaceEncodings, 46 ∉ e := by decide

theorem TrimPrefix_wildcard_append (s : GoString) :
    TrimPrefix (wildcard ++ s) wildcard = s := by
  unfold TrimPrefix
  rw [if_pos (hasPrefix_iff.mpr (List.prefix_append wildcard s))]
  exact List.drop_left wildcard s

theorem TrimPrefix_of_not_hasPrefix {s p : GoString} (h : HasPrefix s p = false) :
    TrimPrefix s p = s := by
  unfold TrimPrefix
  rw [h]; rfl

theorem TrimPrefix_isSuffix (s p : GoString) : TrimPrefix s p <:+ s := by
  unfold TrimPrefix
  split
  · exact List.drop_suffix _ s
  · exact List.suffix_refl s

/-- A string that starts with the marker has no leading white space. -/
theorem leadingSpace_wildcard_append (s : GoString) :
    leadingSpace (wildcard ++ s) = 0 := by
  rw [leadingSpace_eq_zero_iff, wildcard_eq]
  intro e hmem hp
  cases e with
  | nil => exact spaceEncodings_ne_nil [] hmem rfl
  | cons b bs =>
    have hb : b = 42 := (List.cons_prefix_cons.mp hp).1
    subst hb
    exact spaceEncodings_head_ne_star _ hmem rfl

/-- Putting the marker in front of a string adds no trailing white space. -/
theorem trailingSpace_wildcard_append {s : GoString} (h : trailingSpace s = 0) :
    trailingSpace (wildcard ++ s) = 0 := by
  rw [trailingSpace_eq_zero_iff] at h ⊢
  rw [wildcard_eq]
  intro e hmem hs
  have hdot := spaceEncodings_dot_not_mem e hmem
  rcases List.suffix_cons_iff.mp hs with h1 | h1
  · exact hdot (by rw [h1]; simp)
  · rcases List.suffix_cons_iff.mp h1 with h2 | h2
    · exact hdot (by rw [h2]; simp)
    · exact h e hmem h2

/-- The left loop consumes a string made of white-space runes only. -/
theorem trimLeftLoop_spaces (rs : List Nat) (hrs : ∀ r ∈ rs, IsSpace r = true) (n : Nat)
    (hn : (rs.flatMap encodeRune).length ≤ n) :
    trimLeftLoop n (rs.flatMap encodeRune) = [] := by
  induction rs generalizing n with
  | nil =>
    cases n with
    | zero => rfl
    | succ n =>
      show trimLeftLoop (n + 1) [] = []
      unfold trimLeftLoop
      rw [if_pos leadingSpace_nil]
  | cons r rs ih =>
    have hr : encodeRune r ∈ spaceEncodings :=
      encodeRune_mem_spaceEncodings (hrs r (List.mem_cons_self r rs))
    have hpos := spaceEncodings_length_pos hr
    have hsplit : (r :: rs).flatMap encodeRune = encodeRune r ++ rs.flatMap encodeRune := by
      simp [List.flatMap_cons]
    rw [hsplit] at hn ⊢
    rw [List.length_append] at hn
    cases n with
    | zero => omega
    | succ n =>
      unfold trimLeftLoop
      rw [leadingSpace_append_of_mem hr, if_neg (Nat.pos_iff_ne_zero.mp hpos),
        List.drop_left]
      exact ih (fun x hx => hrs x (List.mem_cons_of_mem r hx)) n (by omega)

/-- Lines 95-96 leave nothing of a raw name made of white space only. -/
theorem normaliseName_spaces (rs : List Nat) (hrs : ∀ r ∈ rs, IsSpace r = true) :
    normaliseName (rs.flatMap encodeRune) = [] := by
  have h1 : TrimLeftSpace (rs.flatMap encodeRune) = [] :=
    trimLeftLoop_spaces rs hrs _ (Nat.le_refl _)
  have h2 : TrimSpace (rs.flatMap encodeRune) = [] := by
    unfold TrimSpace
    rw [h1]; rfl
  unfold normaliseName
  rw [h2]; rfl

theorem collect_filter (names : List GoString) (m : StringSet) :
    collect (names.filter (fun r => decide (normaliseName r ≠ []))) m = collect names m := by
  induction names generalizing m with
  | nil => rfl
  | cons n ns ih =>
    by_cases h : normaliseName n = []
    · have hf : (n :: ns).filter (fun r => decide (normaliseName r ≠ [])) =
          ns.filter (fun r => decide (normaliseName r ≠ [])) := by
        simp [List.filter_cons, h]
      have hc : collect (n :: ns) m = collect ns m := by
        have h' : TrimPrefix (TrimSpace n) wildcard = [] := h
        simp [collect, h']
      rw [hf, hc, ih]
    · have hf : (n :: ns).filter (fun r => decide (normaliseName r ≠ [])) =
          n :: ns.filter (fun r => decide (normaliseName r ≠ [])) := by
        simp [List.filter_cons, h]
      have h' : TrimPrefix (TrimSpace n) wildcard ≠ [] := h
      rw [hf]
      simp only [collect, h', ne_eq, not_false_eq_true, if_true]
      exact ih _

theorem scanRows_eq (rows : List Row) (names : List GoString) :
    scanRows rows names = names ++ rows.filterMap Row.name? := by
  induction rows generalizing names with
  | nil => simp [scanRows]
  | cons r rs ih =>
    cases r with
    | value name => simp [scanRows, ih, Row.name?]
    | scanError e => simp [scanRows, ih, Row.name?]

/-! ## `run` on each of its paths -/

theorem run_of_opened (w : World) (domain : GoString) (rows : List Row)
    (hd : domain ≠ []) (hq : w.database (str "%." ++ domain) = QueryOutcome.opened ⟨rows, none⟩) :
    run w domain =
      (none, { w with
        queries := w.queries ++ [str "%." ++ domain]
        stdout := w.stdout ++ normalise w.mapOrder domain (scanRows rows []) }) := by
  unfold run fetchCommonNames
  rw [if_neg hd]
  simp only [hq]

theorem run_of_error (w : World) (domain : GoString) (e : GoError) (hd : domain ≠ [])
    (hq : w.database (str "%." ++ domain) = QueryOutcome.failed e ∨
      ∃ rows, w.database (str "%." ++ domain) = QueryOutcome.opened ⟨rows, some e⟩) :
    run w domain =
      (some (GoError.wrapped "failed to fetch names: " e),
        { w with queries := w.queries ++ [str "%." ++ domain] }) := by
  unfold run fetchCommonNames
  rw [if_neg hd]
  rcases hq with hq | ⟨rows, hq⟩
  · simp only [hq]
  · simp only [hq]

theorem run_queries (w : World) (domain : GoString) (hd : domain ≠ []) :
    (run w domain).2.queries = w.queries ++ [str "%." ++ domain] := by
  cases hq : w.database (str "%." ++ domain) with
  | failed e => rw [run_of_error w domain e hd (Or.inl hq)]
  | opened rows =>
    obtain ⟨pending, err⟩ := rows
    cases err with
    | none => rw [run_of_opened w domain pending hd hq]
    | some e => rw [run_of_error w domain e hd (Or.inr ⟨pending, hq⟩)]

/-! ## The properties of the program -/

/-- C1: for every domain, every list of raw names and every map iteration order,
the lines that lines 92-106 of `run` produce are strictly ascending in byte-wise
order, hence sorted and free of duplicates, also when raw names normalise to the
same value: `"*.x.com"` and `"x.com"` give the single line `"x.com"`. -/
theorem normalise_strictly_ascending (order : List Nat) (domain : GoString)
    (names : List GoString) :
    StrictlyAscending (normalise order domain names) ∧
      (normalise order domain names).Nodup ∧
      normalise order (str "com") [str "*.x.com", str "x.com"] = [str "com", str "x.com"] := by
  have h : StrictlyAscending (normalise order domain names) :=
    sortStrings_ascending (nodup_results order domain names)
  refine ⟨h, h.nodup, ?_⟩
  rw [normalise_order_irrelevant order []]
  decide

/-- C2: for every domain and every list of raw names, the domain string itself
is one of the lines that lines 92-106 of `run` produce; when the query returned
no row it is the only line. -/
theorem domain_mem_normalise (order : List Nat) (domain : GoString)
    (names : List GoString) :
    domain ∈ normalise order domain names ∧ normalise order domain [] = [domain] := by
  refine ⟨mem_normalise.mpr (Or.inl rfl), ?_⟩
  rw [normalise_order_irrelevant order []]
  rfl

/-- C3: a string is a line of the normalised output exactly when it is the domain
or it is non-empty and equals `TrimPrefix(TrimSpace(r), "*.")` for a raw name
`r`; for `["*.a.example.com", " a.example.com ", "b.example.com"]` and domain
`example.com` the output is `a.example.com`, `b.example.com`, `example.com`. -/
theorem mem_normalise_iff (order : List Nat) (domain : GoString) (names : List GoString)
    (s : GoString) :
    (s ∈ normalise order domain names ↔
        s = domain ∨ (s ≠ [] ∧ ∃ r ∈ names, s = TrimPrefix (TrimSpace r) (str "*."))) ∧
      normalise order (str "example.com")
          [str "*.a.example.com", str " a.example.com ", str "b.example.com"] =
        [str "a.example.com", str "b.example.com", str "example.com"] := by
  refine ⟨mem_normalise, ?_⟩
  rw [normalise_order_irrelevant order []]
  decide

/-- C4: lines 95-96 of `run` remove one leading `"*."` and nothing else: for a
string `s` that does not end in white space (so for every `s` with no white
space at either end) the value of `"*." ++ s` is `s`, and for any raw name whose
trimmed form is `"*." ++ s` the value is `s`. -/
theorem normaliseName_wildcard (s : GoString) (hr : trailingSpace s = 0) :
    normaliseName (str "*." ++ s) = s ∧
      ∀ r : GoString, TrimSpace r = str "*." ++ s → normaliseName r = s := by
  constructor
  · show TrimPrefix (TrimSpace (wildcard ++ s)) wildcard = s
    rw [TrimSpace_eq_self (leadingSpace_wildcard_append s) (trailingSpace_wildcard_append hr)]
    exact TrimPrefix_wildcard_append s
  · intro r h
    show TrimPrefix (TrimSpace r) wildcard = s
    rw [h]
    exact TrimPrefix_wildcard_append s

/-- C4 at `"*.*.a.com"` and at `"*.a.*.b.com"`: a second leading marker and an
interior marker stay. -/
theorem normaliseName_wildcard_witness :
    normaliseName (str "*." ++ str "*.a.com") = str "*.a.com" ∧
      normaliseName (str "*." ++ str "a.*.b.com") = str "a.*.b.com" ∧
      str "*." ++ str "*.a.com" = str "*.*.a.com" ∧
      str "*." ++ str "a.*.b.com" = str "*.a.*.b.com" :=
  ⟨(normaliseName_wildcard (str "*.a.com") (by decide)).1,
    (normaliseName_wildcard (str "a.*.b.com") (by decide)).1,
    by decide, by decide⟩

/-- C5: raw names whose normalised value is empty do not reach the result: the
output is the one computed from the raw names without them; a raw name that is
empty or made of white space only is such a name, and so are `"*."` and `" *. "`;
for a non-empty domain the empty string is never a line. -/
theorem normalise_drops_empty (order : List Nat) (domain : GoString)
    (names : List GoString) :
    normalise order domain names =
        normalise order domain (names.filter (fun r => decide (normaliseName r ≠ []))) ∧
      (∀ rs : List Nat, (∀ r ∈ rs, IsSpace r = true) →
        normaliseName (rs.flatMap encodeRune) = []) ∧
      normaliseName (str "*.") = [] ∧ normaliseName (str " *. ") = [] ∧
      (domain ≠ [] → [] ∉ normalise order domain names) := by
  refine ⟨?_, normaliseName_spaces, by decide, by decide, ?_⟩
  · unfold normalise
    simp only []
    rw [collect_filter]
  · intro hd hmem
    rcases mem_normalise.mp hmem with h | ⟨h, _⟩
    · exact hd h.symm
    · exact h rfl

/-- C5 at the domain `example.com` with the raw names `""`, `" \t "`, `"*."` and
`"a.example.com"`. -/
theorem normalise_drops_empty_witness :
    normalise [] (str "example.com")
        [str "", str " \t ", str "*.", str "a.example.com"] =
      normalise [] (str "example.com") [str "a.example.com"] ∧
      [] ∉ normalise [] (str "example.com")
        [str "", str " \t ", str "*.", str "a.example.com"] :=
  ⟨(normalise_drops_empty [] (str "example.com")
      [str "", str " \t ", str "*.", str "a.example.com"]).1,
    (normalise_drops_empty [] (str "example.com")
      [str "", str " \t ", str "*.", str "a.example.com"]).2.2.2.2 (by decide)⟩

/-- C6: with the empty string as domain `run` returns `nil`, writes no line and
does not execute the statement, whatever the database would answer. -/
theorem run_empty_domain (w : World) :
    (run w (str "")).1 = none ∧ (run w (str "")).2.stdout = w.stdout ∧
      (run w (str "")).2.queries = w.queries :=
  ⟨rfl, rfl, rfl⟩

/-- C7: for a non-empty domain, when the statement fails to execute or the cursor
reports an error after its rows, `run` returns that error wrapped by
`"failed to fetch names: "` and writes no line. -/
theorem run_query_failure (w : World) (domain : GoString) (e : GoError)
    (hd : domain ≠ [])
    (hq : w.database (str "%." ++ domain) = QueryOutcome.failed e ∨
      ∃ rows, w.database (str "%." ++ domain) = QueryOutcome.opened ⟨rows, some e⟩) :
    (run w domain).1 = some (GoError.wrapped "failed to fetch names: " e) ∧
      (run w domain).2.stdout = w.stdout := by
  rw [run_of_error w domain e hd hq]
  exact ⟨rfl, rfl⟩

/-- C7 at a cursor that delivers one row and then reports that the deadline was
exceeded, and at a statement that fails to execute. -/
theorem run_query_failure_witness :
    (run ⟨fun _ => QueryOutcome.opened
          ⟨[Row.value (str "a.example.com")], some (GoError.raised "context deadline exceeded")⟩,
        [], [], []⟩ (str "example.com")).1 =
      some (GoError.wrapped "failed to fetch names: "
        (GoError.raised "context deadline exceeded")) ∧
    (run ⟨fun _ => QueryOutcome.opened
          ⟨[Row.value (str "a.example.com")], some (GoError.raised "context deadline exceeded")⟩,
        [], [], []⟩ (str "example.com")).2.stdout = [] ∧
    (run ⟨fun _ => QueryOutcome.failed (GoError.raised "connection lost"), [], [], []⟩
        (str "example.com")).2.stdout = [] :=
  ⟨(run_query_failure _ (str "example.com") _ (by decide)
      (Or.inr ⟨[Row.value (str "a.example.com")], rfl⟩)).1,
    (run_query_failure _ (str "example.com") _ (by decide)
      (Or.inr ⟨[Row.value (str "a.example.com")], rfl⟩)).2,
    (run_query_failure _ (str "example.com") (GoError.raised "connection lost") (by decide)
      (Or.inl rfl)).2⟩

/-- C8: when the cursor delivers `rows` and then ends without error,
`fetchCommonNames` returns, with a `nil` error, the strings of the rows that
scanned, in cursor order; rows whose scan failed are passed over. -/
theorem fetchCommonNames_skips_failed_scans (w : World) (pattern : GoString)
    (rows : List Row) (hq : w.database pattern = QueryOutcome.opened ⟨rows, none⟩) :
    (fetchCommonNames w pattern).1 = (rows.filterMap Row.name?, none) := by
  unfold fetchCommonNames
  simp only [hq]
  rw [scanRows_eq]
  rfl

/-- C8 at a cursor whose second of three rows fails to scan. -/
theorem fetchCommonNames_skips_failed_scans_witness :
    (fetchCommonNames ⟨fun _ => QueryOutcome.opened
        ⟨[Row.value (str "a.example.com"), Row.scanError (GoError.raised "scan"),
          Row.value (str "b.example.com")], none⟩, [], [], []⟩ (str "%.example.com")).1 =
      ([str "a.example.com", str "b.example.com"], none) :=
  fetchCommonNames_skips_failed_scans _ (str "%.example.com")
    [Row.value (str "a.example.com"), Row.scanError (GoError.raised "scan"),
      Row.value (str "b.example.com")] rfl

/-- C9: for a non-empty domain `d`, `run` executes the statement once, with the
pattern `"%." ++ d`: the domain follows the two bytes unchanged. -/
theorem run_pattern (w : World) (domain : GoString) (hd : domain ≠ []) :
    (run w domain).2.queries = w.queries ++ [str "%." ++ domain] :=
  run_queries w domain hd

/-- C9 at the domain `".example.com"`: the pattern is `"%..example.com"`. -/
theorem run_pattern_witness :
    (run ⟨fun _ => QueryOutcome.opened ⟨[], none⟩, [], [], []⟩ (str ".example.com")).2.queries =
      [str "%..example.com"] :=
  run_pattern ⟨fun _ => QueryOutcome.opened ⟨[], none⟩, [], [], []⟩ (str ".example.com")
    (by decide)

/-- C10 fails at the raw name `"*. a.example.com"`: its normalised value is
`" a.example.com"`, which starts with a space and is a line of the output. -/
theorem normaliseName_keeps_inner_space :
    normaliseName (str "*. a.example.com") = str " a.example.com" ∧
      leadingSpace (normaliseName (str "*. a.example.com")) = 1 ∧
      normalise [] (str "example.com") [str "*. a.example.com"] =
        [str " a.example.com", str "example.com"] := by
  decide

/-- C10, amended: the value lines 95-96 of `run` compute for a raw name has no
trailing white space, and it has leading white space exactly when the raw name,
once trimmed, is `"*."` followed by white space. -/
theorem normaliseName_space (r : GoString) :
    trailingSpace (normaliseName r) = 0 ∧
      (leadingSpace (normaliseName r) ≠ 0 ↔
        ∃ t : GoString, TrimSpace r = str "*." ++ t ∧ leadingSpace t ≠ 0) := by
  constructor
  · exact trailingSpace_of_isSuffix (TrimPrefix_isSuffix _ _) (trailingSpace_TrimSpace r)
  · constructor
    · intro h
      cases hp : HasPrefix (TrimSpace r) wildcard with
      | false =>
        have h1 : normaliseName r = TrimSpace r := TrimPrefix_of_not_hasPrefix hp
        rw [h1] at h
        exact absurd (leadingSpace_TrimSpace r) h
      | true =>
        obtain ⟨t, ht⟩ := hasPrefix_iff.mp hp
        refine ⟨t, ht.symm, ?_⟩
        have h1 : normaliseName r = t := by
          show TrimPrefix (TrimSpace r) wildcard = t
          rw [← ht]
          exact TrimPrefix_wildcard_append t
        rw [h1] at h
        exact h
    · rintro ⟨t, ht, hne⟩
      have h1 : normaliseName r = t := by
        show TrimPrefix (TrimSpace r) wildcard = t
        rw [ht]
        exact TrimPrefix_wildcard_append t
      rw [h1]
      exact hne

/-! ## Further properties -/

theorem length_setInsert_le (m : StringSet) (k : GoString) :
    (setInsert m k).length ≤ m.length + 1 := by
  unfold setInsert
  split
  · exact Nat.le_succ _
  · simp

theorem length_collect_le (names : List GoString) (m : StringSet) :
    (collect names m).length ≤ m.length + names.length := by
  induction names generalizing m with
  | nil => exact Nat.le_refl _
  | cons n ns ih =>
    unfold collect
    simp only []
    split
    · have h1 := ih (setInsert m (TrimPrefix (TrimSpace n) wildcard))
      have h2 := length_setInsert_le m (TrimPrefix (TrimSpace n) wildcard)
      simp only [List.length_cons]
      omega
    · have h1 := ih m
      simp only [List.length_cons]
      omega

/-- On a query that succeeds, with a non-empty domain, `run` returns `nil`,
executes the statement once and writes exactly the normalised lines computed
from the rows that scanned, in order, after what standard output already held. -/
theorem run_success (w : World) (domain : GoString) (rows : List Row) (hd : domain ≠ [])
    (hq : w.database (str "%." ++ domain) = QueryOutcome.opened ⟨rows, none⟩) :
    (run w domain).1 = none ∧
      (run w domain).2.stdout =
        w.stdout ++ normalise w.mapOrder domain (rows.filterMap Row.name?) ∧
      StrictlyAscending (normalise w.mapOrder domain (rows.filterMap Row.name?)) ∧
      domain ∈ normalise w.mapOrder domain (rows.filterMap Row.name?) := by
  rw [run_of_opened w domain rows hd hq, scanRows_eq]
  exact ⟨rfl, rfl, sortStrings_ascending (nodup_results _ _ _), mem_normalise.mpr (Or.inl rfl)⟩

/-- The property `run_success` at the spec's example: three rows, one of them a
wildcard name, one padded with spaces. -/
theorem run_success_witness :
    (run ⟨fun _ => QueryOutcome.opened
        ⟨[Row.value (str "*.a.example.com"), Row.value (str " a.example.com "),
          Row.value (str "b.example.com")], none⟩, [1, 0], [], []⟩
        (str "example.com")).2.stdout =
      [] ++ normalise [1, 0] (str "example.com")
        [str "*.a.example.com", str " a.example.com ", str "b.example.com"] :=
  (run_success _ (str "example.com")
    [Row.value (str "*.a.example.com"), Row.value (str " a.example.com "),
      Row.value (str "b.example.com")] (by decide) rfl).2.1

/-- Whatever order the runtime visits the keys of `processed` in, the sorted
`results` are the same: every rearrangement `p` of the keys is an order the
`range` loop can take, and sorting it gives the output of the stored order. -/
theorem results_any_order (domain : GoString) (names : List GoString)
    (p : List GoString) (hp : p.Perm (collect names (setInsert [] domain))) :
    (∃ order, rangeKeys order (collect names (setInsert [] domain)) = p) ∧
      sortStrings p = normalise [] domain names := by
  refine ⟨rangeKeys_reaches _ p hp, ?_⟩
  unfold normalise
  exact sortStrings_congr (hp.trans (rangeKeys_perm [] _).symm)
    (hp.nodup_iff.mpr (nodup_processed domain names))

/-- The property `results_any_order` at a map with two keys visited in the order
opposite to insertion. -/
theorem results_any_order_witness :
    sortStrings [str "a.b.com", str "b.com"] =
      normalise [] (str "b.com") [str "a.b.com"] :=
  (results_any_order (str "b.com") [str "a.b.com"] [str "a.b.com", str "b.com"]
    (List.Perm.swap _ _ [])).2

/-- The output has at most one line more than the query returned rows. -/
theorem normalise_length_le (order : List Nat) (domain : GoString)
    (names : List GoString) :
    (normalise order domain names).length ≤ names.length + 1 := by
  unfold normalise
  simp only []
  rw [(sortStrings_perm _).length_eq, (rangeKeys_perm order _).length_eq]
  have h := length_collect_le names (setInsert [] domain)
  have h2 : (setInsert [] domain).length = 1 := rfl
  omega

/-- When the cursor reports an error after delivering rows, `fetchCommonNames`
returns that error together with the names scanned so far (not `nil`); it is
`run` that drops them. -/
theorem fetchCommonNames_iteration_error (w : World) (pattern : GoString)
    (rows : List Row) (e : GoError)
    (hq : w.database pattern = QueryOutcome.opened ⟨rows, some e⟩) :
    (fetchCommonNames w pattern).1 = (rows.filterMap Row.name?, some e) := by
  unfold fetchCommonNames
  simp only [hq]
  rw [scanRows_eq]
  rfl

/-- The property `fetchCommonNames_iteration_error` at a cursor that delivers one
row before the deadline passes. -/
theorem fetchCommonNames_iteration_error_witness :
    (fetchCommonNames ⟨fun _ => QueryOutcome.opened
        ⟨[Row.value (str "a.example.com")],
          some (GoError.raised "context deadline exceeded")⟩, [], [], []⟩
        (str "%.example.com")).1 =
      ([str "a.example.com"], some (GoError.raised "context deadline exceeded")) :=
  fetchCommonNames_iteration_error _ (str "%.example.com")
    [Row.value (str "a.example.com")] (GoError.raised "context deadline exceeded") rfl

/-- What `strings.TrimSpace` returns is a contiguous part of its argument with
no white space at either end, and trimming it again changes nothing. -/
theorem TrimSpace_trimmed (s : GoString) :
    leadingSpace (TrimSpace s) = 0 ∧ trailingSpace (TrimSpace s) = 0 ∧
      TrimSpace s <:+: s ∧ TrimSpace (TrimSpace s) = TrimSpace s :=
  ⟨leadingSpace_TrimSpace s, trailingSpace_TrimSpace s,
    (trimRightLoop_isPrefix _ _).isInfix.trans (trimLeftLoop_isSuffix _ _).isInfix,
    TrimSpace_eq_self (leadingSpace_TrimSpace s) (trailingSpace_TrimSpace s)⟩

end DnsGrepper
